import Mathlib

/-!
Verification of the build-graph generator `fzconf.py` against its
natural-language specification.

The Python source is shallowly embedded as executable Lean definitions:

* `matchInclude` embeds the anchored regular-expression match
  `[\t ]*#[\t ]*include[\t ]*"([^"]+)"` used by `Project._find_deps_cpp`;
* `find_deps_cpp` embeds the worklist traversal of `Project._find_deps_cpp`.
  The file system is an association list from path to the list of lines of
  the file (`none` lookup = unreadable file), and the OS path resolution
  `os.path.relpath(os.path.join(abspath(dirname(including)), inc))` is a
  parameter `rp : String → String → String` (including file, include text).
  Python's `list.pop()` removes the *last* element, so the queue is kept
  reversed (head of the Lean list = tail of the Python list).  The recursion
  is bounded by fuel `linesTotal fs + 1`; since every path is enqueued at
  most once (the membership guard) and each pop consumes one unit, the
  bound is never reached on any input, and exhaustion is reported as
  `none`.  The `sys.stderr` diagnostics are modelled by accumulating the
  unreadable path names in a warning list;
* `Cmd` embeds the two command shapes stored in rules (literal shell line
  strings and token tuples/lists);
* `Project.init` embeds `Project.__init__` together with its helpers
  `_proc_intermediate` and `_proc_linkage` and the precompiled-header
  branch; Python dictionaries are association lists updated by
  `insertOver`, Python sets are duplicate-free lists built by `insNew` /
  `setUnion`;
* `Makefile.new` / `Makefile.import_projects` embed the graph assembler;
* `cxxflags_check` embeds the flag-probing routine; the external compiler
  invocation `try_compile` is an oracle parameter, the module-global
  `_cxxflag_cache` is threaded explicitly, and the number of compiler
  invocations performed is returned so that caching behaviour is
  observable.

`Makefile.save`, `command_exists` and the `Args` command-line parser are
pure I/O and are outside the modelled core.
-/

/-- Single-quote character (shell quoting in generated `echo` commands). -/
def squo : String := String.mk [Char.ofNat 39]

/-- First-match association-list lookup (Python `dict[k]` / `k in dict`). -/
def lookupR {α : Type} : List (String × α) → String → Option α
  | [], _ => none
  | (k, v) :: rest, key => if k = key then some v else lookupR rest key

/-- Python `dict[k] = v`: overwrite the binding in place, else append. -/
def insertOver {α : Type} : List (String × α) → String × α → List (String × α)
  | [], e => [e]
  | (k, v) :: rest, e => if k = e.1 then e :: rest else (k, v) :: insertOver rest e

/-- Python `dict.update(other)`: insert every binding of `es` in order. -/
def updateAll {α : Type} (m : List (String × α)) (es : List (String × α)) :
    List (String × α) :=
  es.foldl insertOver m

/-- Python `set.add`: append unless already present. -/
def insNew (l : List String) (x : String) : List String :=
  if x ∈ l then l else l ++ [x]

/-- Python `set.update`: add every element of `add`. -/
def setUnion (l add : List String) : List String :=
  add.foldl insNew l

/-- Python string truthiness of an optional string (`not self.lang`). -/
def optFalsy : Option String → Bool
  | none => true
  | some s => s = ""

/-- Boolean test that `p` is a prefix of `s`, on character lists. -/
def isPreL : List Char → List Char → Bool
  | [], _ => true
  | _ :: _, [] => false
  | p :: ps, c :: cs => p = c && isPreL ps cs

/-- Python `str.startswith`. -/
def strStarts (s p : String) : Bool := isPreL p.data s.data

/-- Python `str.endswith`. -/
def strEnds (s p : String) : Bool := isPreL p.data.reverse s.data.reverse

/-- A command of a rule: a literal shell line, or a sequence of tokens
(Python tuple or list) joined by spaces at serialization time. -/
inductive Cmd : Type
  | str : String → Cmd
  | toks : List String → Cmd
deriving DecidableEq

/-- A rule body: prerequisite set (duplicate-free list) and command list. -/
abbrev RuleBody := List String × List Cmd

/-- A file system: path ↦ lines of the file; absent path = unreadable. -/
abbrev FSys := List (String × List String)

/-- Split a character list at its last occurrence of `c`:
`splitLast c l = some (a, b)` iff `l = a ++ [c] ++ b` and `c ∉ b`. -/
def splitLast (c : Char) : List Char → Option (List Char × List Char)
  | [] => none
  | x :: xs =>
    match splitLast c xs with
    | some (a, b) => some (x :: a, b)
    | none => if x = c then some ([], xs) else none

/-- Embeds `os.path.splitext`: split off the extension at the last dot of
the basename, ignoring leading dots of the basename. -/
def splitext (p : String) : String × String :=
  let cs := p.data
  let db : List Char × List Char :=
    match splitLast '/' cs with
    | some (d, b) => (d ++ ['/'], b)
    | none => ([], cs)
  let dots := db.2.takeWhile (fun c => c = '.')
  let rest := db.2.dropWhile (fun c => c = '.')
  match splitLast '.' rest with
  | some (r, e) => (String.mk (db.1 ++ dots ++ r), String.mk ('.' :: e))
  | none => (p, "")

/-- Characters matched by the regex class `[\t ]`. -/
def isWsTabSp (c : Char) : Bool := c = '\t' || c = ' '

/-- Strip an expected literal from the front of a character list. -/
def stripLit : List Char → List Char → Option (List Char)
  | [], cs => some cs
  | _ :: _, [] => none
  | p :: ps, c :: cs => if c = p then stripLit ps cs else none

/-- Capture the characters before the first `"` (the group `[^"]*`),
requiring the closing quote to be present. -/
def capAfter : List Char → Option (List Char)
  | [] => none
  | c :: cs => if c = '"' then some [] else (capAfter cs).map (fun l => c :: l)

/-- Embeds `re.match("[\t ]*#[\t ]*include[\t ]*\"([^\"]+)\"", line)`:
anchored prefix match returning the quoted group (which must be
non-empty, per `[^"]+`). -/
def matchIncludeChars (l : List Char) : Option String :=
  match (l.dropWhile isWsTabSp) with
  | [] => none
  | c :: cs =>
    if c = '#' then
      match stripLit "include".data (cs.dropWhile isWsTabSp) with
      | none => none
      | some cs2 =>
        match (cs2.dropWhile isWsTabSp) with
        | [] => none
        | q :: cs3 =>
          if q = '"' then
            match capAfter cs3 with
            | none => none
            | some [] => none
            | some cap => some (String.mk cap)
          else none
    else none

/-- Match a local `#include "..."` directive at the start of a line. -/
def matchInclude (line : String) : Option String :=
  matchIncludeChars line.data

/-- Total number of lines stored in the modelled file system. -/
def linesTotal (fs : FSys) : Nat :=
  fs.foldl (fun n e => n + e.2.length) 0

/-- One scanned file: fold the lines, collecting newly discovered
dependencies (in line order) into the accumulated set. -/
def scanLines (rp : String → String → String) (path : String)
    (lines : List String) (deps : List String) : List String × List String :=
  lines.foldl
    (fun acc line =>
      match matchInclude line with
      | none => acc
      | some inc =>
        let q := rp path inc
        if q ∈ acc.1 then acc else (acc.1 ++ [q], acc.2 ++ [q]))
    (deps, [])

/-- Worklist loop of `Project._find_deps_cpp`.  The queue is the reverse of
the Python list (Python appends to and pops from the far end).  Returns the
accumulated dependency set and the list of unreadable paths reported to
stderr; `none` only on fuel exhaustion, which no input can reach. -/
def findDepsAux (fs : FSys) (rp : String → String → String) :
    Nat → List String → List String → List String →
    Option (List String × List String)
  | _, [], deps, warns => some (deps, warns)
  | 0, _ :: _, _, _ => none
  | fuel + 1, path :: rest, deps, warns =>
    match lookupR fs path with
    | none => findDepsAux fs rp fuel rest deps (warns ++ [path])
    | some lines =>
      let s := scanLines rp path lines deps
      findDepsAux fs rp fuel (s.2.reverse ++ rest) s.1 warns

/-- Embeds `Project._find_deps_cpp`: recursively find all local `#include`
dependencies of `filename`; the file is a dependency of itself. -/
def find_deps_cpp (fs : FSys) (rp : String → String → String)
    (filename : String) : Option (List String × List String) :=
  findDepsAux fs rp (linesTotal fs + 1) [filename] [filename] []

/-- Lexicographic (code-point) comparison of character lists, the order
Python uses to compare strings. -/
def charLe : List Char → List Char → Bool
  | [], _ => true
  | _ :: _, [] => false
  | a :: as, b :: bs => if a < b then true else if b < a then false else charLe as bs

/-- Python string comparison `a <= b` (lexicographic by code point). -/
def strLeB (a b : String) : Bool := charLe a.data b.data

/-- Lexicographic sort used to model Python `sorted` on a set of paths. -/
def sortStr (l : List String) : List String :=
  List.insertionSort (fun a b => strLeB a b = true) l

/-- The `mkdir -p `dirname $@`` command prepended to compile/link rules. -/
def mkdirCmd : Cmd := Cmd.toks ["mkdir", "-p", "`dirname $@`"]

/-- Tokens of the link command built by `Project._proc_linkage`: the
compiler with every `-std=` flag removed, `-o $@`, the intermediate
objects in sorted order, then the link flags. -/
def linkTokens (compiler ints linkflags : List String) : List String :=
  compiler.filter (fun f => !(strStarts f "-std=")) ++ ["-o", "$@"] ++
    sortStr ints ++ linkflags

/-- State of `Project.__init__` (the Python object's attributes; `out` is
the local variable holding the current final-output path). -/
structure Project where
  name : String
  outdir : String
  outname : String
  intdir : String
  lang : Option String
  postbuild : List Cmd
  postexec : List Cmd
  extdeps : List String
  rules : List (String × RuleBody)
  outs : List String
  phonys : List String
  precompiled : String
  linkflags : List String
  cc : List String
  cxx : List String
  ints : List String
  out : String
deriving DecidableEq

/-- Keyword arguments of `Project.__init__` with their Python defaults. -/
structure ProjectArgs where
  outdir : String := "$(OUTDIR)"
  outname : Option String := none
  intdir : String := "$(INTDIR)"
  lang : Option String := none
  postbuild : List Cmd := []
  postexec : List Cmd := []
  extdeps : List String := []
  outs : List String := []
  precompiled : String := ""
  linkflags : List String := []
  cppflags : List String := []
  cflags : List String := []
  cxxflags : List String := []

/-- The C compiler invocation `self.cc` built at the start of `__init__`. -/
def mkCcList (a : ProjectArgs) : List String :=
  ["$(CC)", "$(CPPFLAGS)"] ++ a.cppflags ++ ["$(CFLAGS)"] ++ a.cflags

/-- The C++ invocation `self.cxx` before the precompiled-header suffix. -/
def mkCxxBase (a : ProjectArgs) : List String :=
  ["$(CXX)", "$(CPPFLAGS)"] ++ a.cppflags ++ ["$(CXXFLAGS)"] ++ a.cxxflags

/-- The C++ invocation `self.cxx`, including the `-include` pair appended
when a precompiled header is configured. -/
def mkCxxList (a : ProjectArgs) : List String :=
  if a.precompiled ≠ "" then
    mkCxxBase a ++ ["-include", "$(INTDIR)" ++ a.precompiled]
  else mkCxxBase a

/-- Attribute initialization of `Project.__init__` (lines up to the
computation of `out`), before any rule is generated. -/
def initProject (name : String) (a : ProjectArgs) : Project :=
  let outname := a.outname.getD name
  { name := name
    outdir := a.outdir
    outname := outname
    intdir := a.intdir
    lang := a.lang
    postbuild := a.postbuild
    postexec := a.postexec
    extdeps := a.extdeps ++
      (if a.precompiled ≠ "" then
        ["$(INTDIR)" ++ a.precompiled ++ "$(PCHEXT)"] else [])
    rules := []
    outs := a.outs.foldl insNew []
    phonys := []
    precompiled := a.precompiled
    linkflags := a.linkflags
    cc := mkCcList a
    cxx := mkCxxList a
    ints := []
    out := a.outdir ++ outname }

/-- Embeds `Project._proc_intermediate`: register the compile rule for one
input unless its intermediate target already has a rule. -/
def Project.proc_intermediate (fs : FSys) (rp : String → String → String)
    (st : Project) (compiler : List String) (inp : String) :
    Except String Project :=
  let intfn := st.intdir ++ inp ++ ".o"
  match lookupR st.rules intfn with
  | some _ => .ok st
  | none =>
    match find_deps_cpp fs rp inp with
    | none => .error "find_deps_cpp: resource bound exceeded"
    | some fd =>
      let deps := setUnion fd.1 st.extdeps
      .ok { st with
        rules := insertOver st.rules
          (intfn, (deps, [mkdirCmd, Cmd.toks (compiler ++ ["-o", "$@", "-c", inp])]))
        ints := st.ints ++ [intfn] }

/-- Embeds `Project._proc_linkage`: register the link rule for `out`. -/
def Project.proc_linkage (st : Project) (compiler : List String)
    (out : String) : Project :=
  let deps := setUnion st.ints st.extdeps
  { st with
    rules := insertOver st.rules
      (out, (deps, [mkdirCmd, Cmd.toks (linkTokens compiler st.ints st.linkflags)]))
    outs := setUnion (insNew st.outs out) st.ints }

/-- Per-input language dispatch of the compilation stage of
`Project.__init__` (extension → language bucket → compile rule). -/
def processInput (fs : FSys) (rp : String → String → String)
    (st : Project) (inp : String) : Except String Project :=
  let ext := (splitext inp).2
  if ext = ".cc" ∨ ext = ".cpp" ∨ ext = ".cxx" ∨ ext = ".c++" then
    if optFalsy st.lang ∨ st.lang = some "c" then
      Project.proc_intermediate fs rp { st with lang := some "c++" } st.cxx inp
    else if st.lang ≠ some "c++" then
      .error ("Mixing " ++ squo ++ (st.lang.getD "") ++ squo ++ " with " ++
        squo ++ "c++" ++ squo ++ ".")
    else Project.proc_intermediate fs rp st st.cxx inp
  else if ext = ".c" then
    if optFalsy st.lang then
      Project.proc_intermediate fs rp { st with lang := some "c" } st.cc inp
    else if st.lang ≠ some "c" ∧ st.lang ≠ some "c++" then
      .error ("Mixing " ++ squo ++ (st.lang.getD "") ++ squo ++ " with " ++
        squo ++ "c" ++ squo ++ ".")
    else Project.proc_intermediate fs rp st st.cc inp
  else .error ("Unrecognized extension: " ++ ext)

/-- The compilation stage: fold `processInput` over the inputs. -/
def processInputs (fs : FSys) (rp : String → String → String) :
    List String → Project → Except String Project
  | [], st => .ok st
  | inp :: rest, st =>
    match processInput fs rp st inp with
    | .error e => .error e
    | .ok st2 => processInputs fs rp rest st2

/-- Empty-project / link dispatch after the compilation stage. -/
def Project.genericFinish (st : Project) : Except String Project :=
  if optFalsy st.lang then
    .ok { st with
      rules := insertOver st.rules (st.out, ([], []))
      phonys := insNew st.phonys st.out }
  else if st.lang = some "c++" then .ok (st.proc_linkage st.cxx st.out)
  else if st.lang = some "c" then .ok (st.proc_linkage st.cc st.out)
  else .error ("Unrecognized language: " ++ st.lang.getD "")

/-- Append commands to the rule stored under `k` (Python
`self.rules[k][1].extend(cs)`; the key is always present when called). -/
def appendCmds (m : List (String × RuleBody)) (k : String) (cs : List Cmd) :
    List (String × RuleBody) :=
  match m with
  | [] => []
  | (k2, r) :: rest =>
    if k2 = k then (k2, (r.1, r.2 ++ cs)) :: rest
    else (k2, r) :: appendCmds rest k cs

/-- Final lines of `Project.__init__`: the phony alias rule when the name
differs from the output path, then the post-build and post-exec commands. -/
def Project.finishTail (name : String) (st : Project) : Project :=
  let st1 :=
    if name ≠ st.out then
      { st with rules := insertOver st.rules (name, ([st.out], []))
                phonys := insNew st.phonys name }
    else st
  let st2 := { st1 with rules := appendCmds st1.rules st1.out st1.postbuild }
  { st2 with rules := appendCmds st2.rules name st2.postexec }

/-- Aggregator-file fold of the precompiled-header branch: one `echo`
command per input, dependency-tracking the non-system includes. -/
def headerFold (fs : FSys) (rp : String → String → String) (out : String) :
    List String → List String × List Cmd →
    Except String (List String × List Cmd)
  | [], acc => .ok acc
  | inp :: rest, acc =>
    if strStarts inp "<" && strEnds inp ">" then
      headerFold fs rp out rest
        (acc.1, acc.2 ++ [Cmd.str ("echo >>" ++ out ++ " " ++ squo ++
          "#include " ++ inp ++ squo)])
    else
      match find_deps_cpp fs rp inp with
      | none => .error "find_deps_cpp: resource bound exceeded"
      | some fd =>
        headerFold fs rp out rest
          (setUnion acc.1 fd.1, acc.2 ++ [Cmd.str ("echo >>" ++ out ++ " " ++
            squo ++ "#include \"" ++ inp ++ "\"" ++ squo)])

/-- Precompiled-header branch of `Project.__init__` (`c-header` /
`c++-header`): synthesize the aggregator header and compile it with
`-x <lang>`; the compiled artifact becomes the effective output. -/
def Project.headerStage (fs : FSys) (rp : String → String → String)
    (inputs : List String) (st : Project) : Except String Project :=
  let out := st.out
  match headerFold fs rp out inputs
      ([], [Cmd.toks ["test", st.outdir, "&&", "mkdir", "-p", st.outdir],
            Cmd.toks ["rm", "-f", out]]) with
  | .error e => .error e
  | .ok dc =>
    let st1 := { st with
      rules := insertOver st.rules (out, (dc.1, dc.2))
      outs := insNew st.outs out }
    let out_pch := out ++ "$(PCHEXT)"
    let compiler := if st1.lang = some "c-header" then st1.cc else st1.cxx
    .ok { st1 with
      rules := insertOver st1.rules
        (out_pch, ([out],
          [Cmd.toks (compiler ++ ["-o", "$@", "-x", st1.lang.getD "", "-c", out])]))
      outs := insNew st1.outs out_pch
      out := out_pch }

/-- Embeds `Project.__init__` end to end.  `fs` and `rp` stand for the file
system and OS path resolution used by the dependency scanner. -/
def Project.init (name : String) (inputs : List String) (a : ProjectArgs)
    (fs : FSys) (rp : String → String → String) : Except String Project :=
  let st := initProject name a
  if st.lang = some "c-header" ∨ st.lang = some "c++-header" then
    match Project.headerStage fs rp inputs st with
    | .error e => .error e
    | .ok st2 => .ok (Project.finishTail name st2)
  else
    match processInputs fs rp inputs st with
    | .error e => .error e
    | .ok st2 =>
      match st2.genericFinish with
      | .error e => .error e
      | .ok st3 => .ok (Project.finishTail name st3)

/-- Extract the project from a successful construction (helper for
stating concrete facts; the fallback is never reached in any use). -/
def projOf (r : Except String Project) : Project :=
  match r with
  | .ok st => st
  | .error _ =>
    { name := "", outdir := "", outname := "", intdir := "", lang := none
      postbuild := [], postexec := [], extdeps := [], rules := [], outs := []
      phonys := [], precompiled := "", linkflags := [], cc := [], cxx := []
      ints := [], out := "" }

/-- State of a `Makefile` object (serialization fields omitted: `save`
is I/O and outside the modelled core). -/
structure Makefile where
  rules : List (String × RuleBody)
  cleans : List String
  phonys : List String
  first_target : Option String

/-- `Makefile()` with all-default arguments. -/
def Makefile.new : Makefile :=
  { rules := []
    cleans := []
    phonys := ["all", "build", "clean", "install", "test"]
    first_target := none }

/-- Embeds `Makefile.import_projects`: record the default target on the
first non-empty import, then union in each project's fragment. -/
def Makefile.import_projects (mf : Makefile) (projects : List Project) :
    Makefile :=
  let mf1 :=
    match projects with
    | [] => mf
    | p :: _ =>
      if optFalsy mf.first_target then { mf with first_target := some p.name }
      else mf
  projects.foldl
    (fun m p =>
      { m with
        rules := updateAll m.rules p.rules
        cleans := setUnion m.cleans p.outs
        phonys := setUnion m.phonys p.phonys })
    mf1

/-- Per-compiler flag cache (the module-global `_cxxflag_cache`). -/
abbrev FlagCache := List (String × List (String × String))

/-- One iteration of the flag loop in `cxxflags_check`, threading the new
flag list, the per-compiler cache, and the number of `try_compile`
invocations performed. -/
def cxxflagStep (try_compile : List String → String → Bool)
    (compiler : String) (acc : List String × List (String × String) × Nat)
    (flag : String) : List String × List (String × String) × Nat :=
  match lookupR acc.2.1 flag with
  | some f =>
    (if f ≠ "" then acc.1 ++ [f] else acc.1, acc.2.1, acc.2.2)
  | none =>
    let old_flag := flag
    let s1 : String × List (String × String) × Nat :=
      if flag = "-std=c++11" then
        if try_compile [compiler, flag] "c++" then (flag, acc.2.1, acc.2.2 + 1)
        else
          if try_compile [compiler, "-std=c++0x"] "c++" then
            ("-std=c++0x", insertOver acc.2.1 (old_flag, "-std=c++0x"), acc.2.2 + 2)
          else
            ("", insertOver (insertOver acc.2.1 ("-std=c++0x", "")) (old_flag, ""),
              acc.2.2 + 2)
      else (flag, acc.2.1, acc.2.2)
    let s2 : String × List (String × String) × Nat :=
      if s1.1 = "-std=c++0x" then
        if try_compile [compiler, s1.1] "c++" then (s1.1, s1.2.1, s1.2.2 + 1)
        else ("", insertOver s1.2.1 (old_flag, ""), s1.2.2 + 1)
      else if strStarts s1.1 "-ferror-limit=" then
        if compiler ≠ "clang++" then ("", insertOver s1.2.1 (old_flag, ""), s1.2.2)
        else (s1.1, s1.2.1, s1.2.2)
      else (s1.1, s1.2.1, s1.2.2)
    (if s2.1 ≠ "" then acc.1 ++ [s2.1] else acc.1, s2.2.1, s2.2.2)

/-- Embeds `cxxflags_check`.  `try_compile` is the external-compiler
oracle; returns the accepted flags, the updated global cache, and the
number of compiler invocations performed by this call. -/
def cxxflags_check (try_compile : List String → String → Bool)
    (gcache : FlagCache) (compiler : String) (flags : List String) :
    List String × FlagCache × Nat :=
  let cache := (lookupR gcache compiler).getD []
  let r := flags.foldl (cxxflagStep try_compile compiler) ([], cache, 0)
  (r.1, insertOver gcache (compiler, r.2.1), r.2.2)

/-- `charLe` is total. -/
theorem charLe_total : ∀ a b : List Char, charLe a b = true ∨ charLe b a = true
  | [], _ => Or.inl rfl
  | _ :: _, [] => Or.inr rfl
  | a :: as, b :: bs => by
    rcases lt_trichotomy a b with h | h | h
    · left; simp [charLe, h]
    · subst h
      rcases charLe_total as bs with ih | ih
      · left; simp [charLe, lt_irrefl, ih]
      · right; simp [charLe, lt_irrefl, ih]
    · right; simp [charLe, h]

/-- `charLe` is transitive. -/
theorem charLe_trans : ∀ a b c : List Char,
    charLe a b = true → charLe b c = true → charLe a c = true
  | [], _, _, _, _ => rfl
  | _ :: _, [], _, h1, _ => by simp [charLe] at h1
  | _ :: _, _ :: _, [], _, h2 => by simp [charLe] at h2
  | a :: as, b :: bs, c :: cs, h1, h2 => by
    simp only [charLe] at h1 h2 ⊢
    rcases lt_trichotomy a b with hab | hab | hab
    · rcases lt_trichotomy b c with hbc | hbc | hbc
      · simp [lt_trans hab hbc]
      · subst hbc; simp [hab]
      · rw [if_neg (lt_asymm hbc), if_pos hbc] at h2; exact absurd h2 (by simp)
    · subst hab
      rcases lt_trichotomy a c with hac | hac | hac
      · simp [hac]
      · subst hac
        rw [if_neg (lt_irrefl a), if_neg (lt_irrefl a)] at h1 h2 ⊢
        exact charLe_trans as bs cs h1 h2
      · rw [if_neg (lt_asymm hac), if_pos hac] at h2; exact absurd h2 (by simp)
    · rw [if_neg (lt_asymm hab), if_pos hab] at h1; exact absurd h1 (by simp)

instance : IsTotal String (fun a b => strLeB a b = true) :=
  ⟨fun a b => charLe_total a.data b.data⟩

instance : IsTrans String (fun a b => strLeB a b = true) :=
  ⟨fun a b c => charLe_trans a.data b.data c.data⟩

/-- `sortStr` output is lexicographically sorted. -/
theorem sortStr_sorted (l : List String) :
    List.Sorted (fun a b => strLeB a b = true) (sortStr l) :=
  List.sorted_insertionSort (fun a b => strLeB a b = true) l

/-- `sortStr` output is a permutation of its input. -/
theorem sortStr_perm (l : List String) : (sortStr l).Perm l :=
  List.perm_insertionSort (fun a b => strLeB a b = true) l

/-- Lookup after an in-place-overwriting insert. -/
theorem lookupR_insertOver {α : Type} (m : List (String × α)) (e : String × α)
    (k : String) :
    lookupR (insertOver m e) k = if e.1 = k then some e.2 else lookupR m k := by
  obtain ⟨e1, e2⟩ := e
  induction m with
  | nil => rfl
  | cons a rest ih =>
    obtain ⟨a1, a2⟩ := a
    simp only [insertOver]
    by_cases h : a1 = e1
    · subst h
      by_cases hk : a1 = k <;> simp [lookupR, hk]
    · by_cases hk : a1 = k
      · subst hk
        have hek : ¬ e1 = a1 := fun he => h he.symm
        simp [lookupR, h, hek]
      · simp [lookupR, h, hk, ih]

/-- Lookup after appending commands to the rule at `k2`. -/
theorem lookupR_appendCmds (m : List (String × RuleBody)) (k2 : String)
    (cs : List Cmd) (k : String) :
    lookupR (appendCmds m k2 cs) k =
      if k2 = k then (lookupR m k).map (fun r => (r.1, r.2 ++ cs))
      else lookupR m k := by
  induction m with
  | nil =>
    by_cases h : k2 = k <;> simp [appendCmds, lookupR, h]
  | cons a rest ih =>
    obtain ⟨a1, a2⟩ := a
    simp only [appendCmds]
    by_cases h : a1 = k2
    · subst h
      by_cases hk : a1 = k <;> simp [lookupR, hk]
    · by_cases hk : a1 = k
      · subst hk
        have hk2 : ¬ k2 = a1 := fun he => h he.symm
        simp [lookupR, h, hk2]
      · simp [lookupR, h, hk, ih]

/-- Membership in a Python-set insertion. -/
theorem mem_insNew (l : List String) (x y : String) :
    y ∈ insNew l x ↔ y ∈ l ∨ y = x := by
  unfold insNew
  split
  · next h => constructor
              · exact fun hy => Or.inl hy
              · rintro (hy | rfl) <;> [exact hy; exact h]
  · simp

/-- Membership in a Python-set union. -/
theorem mem_setUnion (l add : List String) (y : String) :
    y ∈ setUnion l add ↔ y ∈ l ∨ y ∈ add := by
  induction add generalizing l with
  | nil => simp [setUnion]
  | cons a rest ih =>
    show y ∈ setUnion (insNew l a) rest ↔ _
    rw [ih, mem_insNew]
    simp only [List.mem_cons]
    tauto

/-- Left-biased choice on options (dict-update lookup combinator). -/
def oOr {α : Type} : Option α → Option α → Option α
  | some v, _ => some v
  | none, b => b

/-- Lookup distributes over list append via `oOr`. -/
theorem lookupR_append {α : Type} (l1 l2 : List (String × α)) (k : String) :
    lookupR (l1 ++ l2) k = oOr (lookupR l1 k) (lookupR l2 k) := by
  induction l1 with
  | nil => simp [lookupR, oOr]
  | cons a rest ih =>
    obtain ⟨a1, a2⟩ := a
    by_cases h : a1 = k <;> simp [lookupR, h, oOr, ih]

/-- Lookup after a Python `dict.update`: the last binding of `es` wins,
else the original mapping. -/
theorem lookupR_updateAll {α : Type} (m es : List (String × α)) (k : String) :
    lookupR (updateAll m es) k = oOr (lookupR es.reverse k) (lookupR m k) := by
  induction es generalizing m with
  | nil => simp [updateAll, lookupR, oOr]
  | cons e rest ih =>
    show lookupR (updateAll (insertOver m e) rest) k = _
    rw [ih, lookupR_insertOver, List.reverse_cons, lookupR_append]
    cases lookupR rest.reverse k with
    | some v => simp [oOr]
    | none =>
      by_cases he : e.1 = k <;> simp [lookupR, he, oOr]

/-- `_proc_intermediate` only touches `rules` and `ints`. -/
theorem proc_intermediate_pres {fs : FSys} {rp : String → String → String}
    {st : Project} {c : List String} {inp : String} {st' : Project}
    (h : Project.proc_intermediate fs rp st c inp = .ok st') :
    st'.cc = st.cc ∧ st'.cxx = st.cxx ∧ st'.extdeps = st.extdeps ∧
    st'.linkflags = st.linkflags ∧ st'.phonys = st.phonys ∧ st'.out = st.out ∧
    st'.name = st.name ∧ st'.postbuild = st.postbuild ∧
    st'.postexec = st.postexec ∧ st'.intdir = st.intdir ∧
    st'.outs = st.outs ∧ st'.lang = st.lang := by
  simp only [Project.proc_intermediate] at h
  repeat' split at h
  all_goals
    first
      | exact Except.noConfusion h
      | (injection h with h; subst h; simp)

/-- The per-input dispatch only touches `rules`, `ints` and `lang`. -/
theorem processInput_pres {fs : FSys} {rp : String → String → String}
    {st : Project} {inp : String} {st' : Project}
    (h : processInput fs rp st inp = .ok st') :
    st'.cc = st.cc ∧ st'.cxx = st.cxx ∧ st'.extdeps = st.extdeps ∧
    st'.linkflags = st.linkflags ∧ st'.phonys = st.phonys ∧ st'.out = st.out ∧
    st'.name = st.name ∧ st'.postbuild = st.postbuild ∧
    st'.postexec = st.postexec ∧ st'.intdir = st.intdir ∧
    st'.outs = st.outs := by
  simp only [processInput] at h
  split at h
  · split at h
    · obtain ⟨p1, p2, p3, p4, p5, p6, p7, p8, p9, p10, p11, _⟩ :=
        proc_intermediate_pres h
      simp_all
    · split at h
      · exact absurd h (by simp)
      · obtain ⟨p1, p2, p3, p4, p5, p6, p7, p8, p9, p10, p11, _⟩ :=
          proc_intermediate_pres h
        simp_all
  · split at h
    · split at h
      · obtain ⟨p1, p2, p3, p4, p5, p6, p7, p8, p9, p10, p11, _⟩ :=
          proc_intermediate_pres h
        simp_all
      · split at h
        · exact absurd h (by simp)
        · obtain ⟨p1, p2, p3, p4, p5, p6, p7, p8, p9, p10, p11, _⟩ :=
            proc_intermediate_pres h
          simp_all
    · exact absurd h (by simp)

/-- The compilation stage only touches `rules`, `ints` and `lang`. -/
theorem processInputs_pres {fs : FSys} {rp : String → String → String} :
    ∀ {inputs : List String} {st st' : Project},
    processInputs fs rp inputs st = .ok st' →
    st'.cc = st.cc ∧ st'.cxx = st.cxx ∧ st'.extdeps = st.extdeps ∧
    st'.linkflags = st.linkflags ∧ st'.phonys = st.phonys ∧ st'.out = st.out ∧
    st'.name = st.name ∧ st'.postbuild = st.postbuild ∧
    st'.postexec = st.postexec ∧ st'.intdir = st.intdir ∧
    st'.outs = st.outs := by
  intro inputs
  induction inputs with
  | nil =>
    intro st st' h
    injection h with h
    subst h
    simp
  | cons inp rest ih =>
    intro st st' h
    unfold processInputs at h
    split at h
    · exact absurd h (by simp)
    · next st2 heq =>
      obtain ⟨i1, i2, i3, i4, i5, i6, i7, i8, i9, i10, i11⟩ := ih h
      obtain ⟨p1, p2, p3, p4, p5, p6, p7, p8, p9, p10, p11⟩ :=
        processInput_pres heq
      simp_all

/-- Fields of the project untouched by the final lines of `__init__`. -/
theorem finishTail_fields (name : String) (st : Project) :
    (Project.finishTail name st).out = st.out ∧
    (Project.finishTail name st).lang = st.lang ∧
    (Project.finishTail name st).ints = st.ints ∧
    (Project.finishTail name st).extdeps = st.extdeps ∧
    (Project.finishTail name st).cc = st.cc ∧
    (Project.finishTail name st).cxx = st.cxx ∧
    (Project.finishTail name st).linkflags = st.linkflags ∧
    (Project.finishTail name st).postbuild = st.postbuild ∧
    (Project.finishTail name st).postexec = st.postexec := by
  unfold Project.finishTail
  split <;> simp

/-- Phony set produced by the final lines of `__init__`. -/
theorem finishTail_phonys (name : String) (st : Project) :
    (Project.finishTail name st).phonys =
      if name ≠ st.out then insNew st.phonys name else st.phonys := by
  unfold Project.finishTail
  split <;> simp_all

/-- Rule mapping after the final lines of `__init__` when the project name
differs from the output path: the phony alias carries exactly the
post-exec commands, and the output rule gains the post-build commands. -/
theorem finishTail_rules_ne (name : String) (st : Project)
    (hne : name ≠ st.out) :
    lookupR (Project.finishTail name st).rules name =
      some ([st.out], st.postexec) ∧
    lookupR (Project.finishTail name st).rules st.out =
      (lookupR st.rules st.out).map (fun r => (r.1, r.2 ++ st.postbuild)) ∧
    (∀ k, k ≠ name → k ≠ st.out →
      lookupR (Project.finishTail name st).rules k = lookupR st.rules k) := by
  unfold Project.finishTail
  rw [if_pos hne]
  simp only
  refine ⟨?_, ?_, ?_⟩
  · rw [lookupR_appendCmds, if_pos rfl, lookupR_appendCmds,
      if_neg (fun he => hne he.symm), lookupR_insertOver, if_pos rfl]
    simp
  · rw [lookupR_appendCmds, if_neg hne,
      lookupR_appendCmds, if_pos rfl, lookupR_insertOver, if_neg hne]
  · intro k hk1 hk2
    rw [lookupR_appendCmds, if_neg (fun he => hk1 he.symm),
      lookupR_appendCmds, if_neg (fun he => hk2 he.symm),
      lookupR_insertOver, if_neg (fun he => hk1 he.symm)]

/-- Rule mapping after the final lines of `__init__` when the project name
equals the output path: no alias; the single output rule receives the
post-build commands and then the post-exec commands. -/
theorem finishTail_rules_eq (name : String) (st : Project)
    (heq : name = st.out) (k : String) :
    lookupR (Project.finishTail name st).rules k =
      if st.out = k then
        (lookupR st.rules k).map
          (fun r => (r.1, r.2 ++ st.postbuild ++ st.postexec))
      else lookupR st.rules k := by
  unfold Project.finishTail
  rw [if_neg (fun hne => hne heq)]
  simp only
  by_cases hk : st.out = k
  · have hk2 : name = k := heq.trans hk
    rw [lookupR_appendCmds, if_pos hk2, lookupR_appendCmds, if_pos hk, if_pos hk]
    cases lookupR st.rules k <;> simp
  · have hk2 : ¬ name = k := fun he => hk (heq.symm.trans he)
    rw [lookupR_appendCmds, if_neg hk2, lookupR_appendCmds, if_neg hk, if_neg hk]

/-- The precompiled-header branch touches only `rules`, `outs` and `out`,
appending the precompiled extension to the output path. -/
theorem headerStage_fields {fs : FSys} {rp : String → String → String}
    {inputs : List String} {st st' : Project}
    (h : Project.headerStage fs rp inputs st = .ok st') :
    st'.phonys = st.phonys ∧ st'.lang = st.lang ∧
    st'.postbuild = st.postbuild ∧ st'.postexec = st.postexec ∧
    st'.out = st.out ++ "$(PCHEXT)" ∧ st'.ints = st.ints := by
  simp only [Project.headerStage] at h
  repeat' split at h
  all_goals
    first
      | exact Except.noConfusion h
      | (injection h with h; subst h; simp)

/-- Dissection of `Project.__init__` for non-header languages. -/
theorem init_generic {name : String} {inputs : List String} {a : ProjectArgs}
    {fs : FSys} {rp : String → String → String} {st : Project}
    (h : Project.init name inputs a fs rp = .ok st)
    (hna : ¬ (a.lang = some "c-header" ∨ a.lang = some "c++-header")) :
    ∃ st2 st3, processInputs fs rp inputs (initProject name a) = .ok st2 ∧
      st2.genericFinish = .ok st3 ∧ st = Project.finishTail name st3 := by
  have hl : (initProject name a).lang = a.lang := rfl
  simp only [Project.init, hl] at h
  rw [if_neg hna] at h
  split at h
  · exact Except.noConfusion h
  · next st2 heq =>
    split at h
    · exact Except.noConfusion h
    · next st3 heq3 =>
      injection h with h
      exact ⟨st2, st3, heq, heq3, h.symm⟩

/-- Dissection of `Project.__init__` for the precompiled-header branch. -/
theorem init_header {name : String} {inputs : List String} {a : ProjectArgs}
    {fs : FSys} {rp : String → String → String} {st : Project}
    (h : Project.init name inputs a fs rp = .ok st)
    (hha : a.lang = some "c-header" ∨ a.lang = some "c++-header") :
    ∃ st2, Project.headerStage fs rp inputs (initProject name a) = .ok st2 ∧
      st = Project.finishTail name st2 := by
  have hl : (initProject name a).lang = a.lang := rfl
  simp only [Project.init, hl] at h
  rw [if_pos hha] at h
  split at h
  · exact Except.noConfusion h
  · next st2 heq =>
    injection h with h
    exact ⟨st2, heq, h.symm⟩

/-- A source line holding a local include directive for `s`. -/
def incLine (s : String) : String := "#include \"" ++ s ++ "\""

/-- `capAfter` on quote-free characters followed by a closing quote
captures exactly those characters. -/
theorem capAfter_no_quote (t : List Char) (h : ∀ c ∈ t, c ≠ '"') :
    capAfter (t ++ ['"']) = some t := by
  induction t with
  | nil => rfl
  | cons c cs ih =>
    have hc : c ≠ '"' := h c (List.mem_cons_self c cs)
    rw [List.cons_append, capAfter, if_neg hc,
      ih (fun d hd => h d (List.mem_cons_of_mem c hd))]
    rfl

/-- The include-line constructor is recognized by the directive matcher. -/
theorem matchInclude_incLine (s : String) (h1 : s ≠ "")
    (h2 : ∀ c ∈ s.data, c ≠ '"') :
    matchInclude (incLine s) = some s := by
  have hne : s.data ≠ [] := by
    intro he
    apply h1
    cases s
    simp_all
  obtain ⟨c, cs, hcs⟩ := List.exists_cons_of_ne_nil hne
  have key : matchInclude (incLine s) =
      (match capAfter (s.data ++ ['"']) with
       | none => none
       | some [] => none
       | some cap => some (String.mk cap)) := rfl
  rw [key, capAfter_no_quote s.data h2, hcs]
  show some (String.mk (c :: cs)) = some s
  rw [← hcs]

/-- Single-step equation: empty worklist returns the accumulated set. -/
theorem findDepsAux_nil (fs : FSys) (rp : String → String → String)
    (fuel : Nat) (deps warns : List String) :
    findDepsAux fs rp fuel [] deps warns = some (deps, warns) := by
  cases fuel <;> rfl

/-- Single-step equation: pop one path from the worklist. -/
theorem findDepsAux_cons (fs : FSys) (rp : String → String → String)
    (fuel : Nat) (p : String) (rest deps warns : List String) :
    findDepsAux fs rp (fuel + 1) (p :: rest) deps warns =
      match lookupR fs p with
      | none => findDepsAux fs rp fuel rest deps (warns ++ [p])
      | some lines =>
        findDepsAux fs rp fuel ((scanLines rp p lines deps).2.reverse ++ rest)
          (scanLines rp p lines deps).1 warns := rfl

/-- C1: for any two distinct files `a` and `b` (valid quote-free names)
whose contents include each other (a two-node include cycle), the
dependency scan of `a` terminates within its worklist bound and returns
exactly the set `{a, b}` — as a duplicate-free list `[a, b]` — with no
diagnostics; the membership guard alone breaks the cycle. -/
theorem fzconf_C1 (a b : String) (hab : a ≠ b)
    (ha1 : a ≠ "") (ha2 : ∀ c ∈ a.data, c ≠ '"')
    (hb1 : b ≠ "") (hb2 : ∀ c ∈ b.data, c ≠ '"')
    (rp : String → String → String) (hrab : rp a b = b) (hrba : rp b a = a) :
    find_deps_cpp [(a, [incLine b]), (b, [incLine a])] rp a =
      some ([a, b], []) := by
  have hma := matchInclude_incLine a ha1 ha2
  have hmb := matchInclude_incLine b hb1 hb2
  have hba : b ≠ a := fun h => hab h.symm
  have hlt : linesTotal [(a, [incLine b]), (b, [incLine a])] = 2 := rfl
  unfold find_deps_cpp
  rw [hlt]
  show findDepsAux _ rp (2 + 1) [a] [a] [] = _
  rw [findDepsAux_cons]
  have hl1 : lookupR [(a, [incLine b]), (b, [incLine a])] a = some [incLine b] := by
    simp [lookupR]
  rw [hl1]
  show findDepsAux _ rp 2 ((scanLines rp a [incLine b] [a]).2.reverse ++ [])
    (scanLines rp a [incLine b] [a]).1 [] = _
  have hs1 : scanLines rp a [incLine b] [a] = ([a, b], [b]) := by
    simp [scanLines, hmb, hrab, hba]
  rw [hs1]
  show findDepsAux _ rp (1 + 1) [b] [a, b] [] = _
  rw [findDepsAux_cons]
  have hl2 : lookupR [(a, [incLine b]), (b, [incLine a])] b = some [incLine a] := by
    simp [lookupR, hab]
  rw [hl2]
  show findDepsAux _ rp 1 ((scanLines rp b [incLine a] [a, b]).2.reverse ++ [])
    (scanLines rp b [incLine a] [a, b]).1 [] = _
  have hs2 : scanLines rp b [incLine a] [a, b] = ([a, b], []) := by
    simp [scanLines, hma, hrba]
  rw [hs2]
  show findDepsAux _ rp 1 [] [a, b] [] = _
  rw [findDepsAux_nil]

/-- Witness for C1 at the concrete cycle `a.h ↔ b.h` in the working
directory (where path resolution is the identity). -/
theorem fzconf_C1_witness :
    find_deps_cpp [("a.h", [incLine "b.h"]), ("b.h", [incLine "a.h"])]
      (fun _ inc => inc) "a.h" = some (["a.h", "b.h"], []) :=
  fzconf_C1 "a.h" "b.h" (by decide) (by decide) (by decide) (by decide)
    (by decide) (fun _ inc => inc) rfl rfl

/-- C7: a traversal that meets an unreadable local header `h` does not
fail: it records a diagnostic naming `h`, adds no dependencies from `h`,
continues with the rest of the worklist (here scanning the readable file
`b` after the failure), and returns the partial dependency set collected
(which contains `h` itself, enqueued when its include was seen). -/
theorem fzconf_C7 (a b h : String) (hab : a ≠ b) (hah : a ≠ h) (hbh : b ≠ h)
    (hb1 : b ≠ "") (hb2 : ∀ c ∈ b.data, c ≠ '"')
    (hh1 : h ≠ "") (hh2 : ∀ c ∈ h.data, c ≠ '"')
    (rp : String → String → String) (hrab : rp a b = b) (hrah : rp a h = h) :
    find_deps_cpp [(a, [incLine b, incLine h]), (b, [])] rp a =
      some ([a, b, h], [h]) := by
  have hmb := matchInclude_incLine b hb1 hb2
  have hmh := matchInclude_incLine h hh1 hh2
  have hba : b ≠ a := fun e => hab e.symm
  have hha : h ≠ a := fun e => hah e.symm
  have hhb : h ≠ b := fun e => hbh e.symm
  have hlt : linesTotal [(a, [incLine b, incLine h]), (b, [])] = 2 := rfl
  unfold find_deps_cpp
  rw [hlt]
  show findDepsAux _ rp (2 + 1) [a] [a] [] = _
  rw [findDepsAux_cons]
  have hl1 : lookupR [(a, [incLine b, incLine h]), (b, [])] a =
      some [incLine b, incLine h] := by
    simp [lookupR]
  rw [hl1]
  show findDepsAux _ rp 2
    ((scanLines rp a [incLine b, incLine h] [a]).2.reverse ++ [])
    (scanLines rp a [incLine b, incLine h] [a]).1 [] = _
  have hs1 : scanLines rp a [incLine b, incLine h] [a] = ([a, b, h], [b, h]) := by
    simp [scanLines, hmb, hmh, hrab, hrah, hba, hha, hhb]
  rw [hs1]
  show findDepsAux _ rp (1 + 1) [h, b] [a, b, h] [] = _
  rw [findDepsAux_cons]
  have hl2 : lookupR [(a, [incLine b, incLine h]), (b, [])] h = none := by
    simp [lookupR, hah, hbh]
  rw [hl2]
  show findDepsAux _ rp (0 + 1) [b] [a, b, h] [h] = _
  rw [findDepsAux_cons]
  have hl3 : lookupR [(a, [incLine b, incLine h]), (b, [])] b = some [] := by
    simp [lookupR, hab]
  rw [hl3]
  show findDepsAux _ rp 0 [] [a, b, h] [h] = _
  rw [findDepsAux_nil]

/-- Witness for C7: `main.c` includes the readable `util.h` and the
nonexistent `ghost.h`. -/
theorem fzconf_C7_witness :
    find_deps_cpp
      [("main.c", [incLine "util.h", incLine "ghost.h"]), ("util.h", [])]
      (fun _ inc => inc) "main.c" =
      some (["main.c", "util.h", "ghost.h"], ["ghost.h"]) :=
  fzconf_C7 "main.c" "util.h" "ghost.h" (by decide) (by decide) (by decide)
    (by decide) (by decide) (by decide) (by decide)
    (fun _ inc => inc) rfl rfl

/-- Counterexample for C3: with a compiler that accepts every flag, the
call resolving `-std=c++11` writes nothing into the cache, so a second
identical call performs one further `try_compile` invocation — not zero
as the claim asserts ("without invoking the compiler again"). -/
theorem fzconf_C3_cex :
    (cxxflags_check (fun _ _ => true)
      (cxxflags_check (fun _ _ => true) [] "g++" ["-std=c++11"]).2.1
      "g++" ["-std=c++11"]).2.2 = 1 ∧
    ¬ (cxxflags_check (fun _ _ => true)
      (cxxflags_check (fun _ _ => true) [] "g++" ["-std=c++11"]).2.1
      "g++" ["-std=c++11"]).2.2 = 0 := by
  decide

/-- C3 (amended): when the compiler accepts `-std=c++11` and the flag is
not yet cached for this compiler, `cxxflags_check` returns the flag
unchanged — but it caches nothing on this accepted-unchanged path, so a
second identical call again returns the flag unchanged and again invokes
the compiler exactly once; only fallback or dropped resolutions are
cached. -/
theorem fzconf_C3 (try_compile : List String → String → Bool)
    (gcache : FlagCache) (compiler : String)
    (hacc : try_compile [compiler, "-std=c++11"] "c++" = true)
    (hmiss : lookupR ((lookupR gcache compiler).getD []) "-std=c++11" = none) :
    (cxxflags_check try_compile gcache compiler ["-std=c++11"]).1 = ["-std=c++11"] ∧
    (cxxflags_check try_compile gcache compiler ["-std=c++11"]).2.2 = 1 ∧
    (cxxflags_check try_compile
        (cxxflags_check try_compile gcache compiler ["-std=c++11"]).2.1
        compiler ["-std=c++11"]).1 = ["-std=c++11"] ∧
    (cxxflags_check try_compile
        (cxxflags_check try_compile gcache compiler ["-std=c++11"]).2.1
        compiler ["-std=c++11"]).2.2 = 1 := by
  have hstep : ∀ cache : List (String × String), lookupR cache "-std=c++11" = none →
      cxxflagStep try_compile compiler ([], cache, 0) "-std=c++11" =
        (["-std=c++11"], cache, 1) := by
    intro cache hc
    unfold cxxflagStep
    simp only [hc, hacc]
    rfl
  have hone : ∀ g : FlagCache,
      lookupR ((lookupR g compiler).getD []) "-std=c++11" = none →
      cxxflags_check try_compile g compiler ["-std=c++11"] =
        (["-std=c++11"], insertOver g (compiler, (lookupR g compiler).getD []), 1) := by
    intro g hg
    unfold cxxflags_check
    simp only [List.foldl]
    rw [hstep _ hg]
  have h1 := hone gcache hmiss
  have hlc : lookupR (insertOver gcache (compiler, (lookupR gcache compiler).getD []))
      compiler = some ((lookupR gcache compiler).getD []) := by
    rw [lookupR_insertOver]
    simp
  have h2 := hone (insertOver gcache (compiler, (lookupR gcache compiler).getD []))
    (by rw [hlc]; simpa using hmiss)
  simp [h1, h2]

/-- Witness for C3's amended statement at an always-accepting compiler
oracle and an empty cache. -/
theorem fzconf_C3_witness :
    (cxxflags_check (fun _ _ => true) [] "g++" ["-std=c++11"]).1 = ["-std=c++11"] ∧
    (cxxflags_check (fun _ _ => true) [] "g++" ["-std=c++11"]).2.2 = 1 ∧
    (cxxflags_check (fun _ _ => true)
        (cxxflags_check (fun _ _ => true) [] "g++" ["-std=c++11"]).2.1
        "g++" ["-std=c++11"]).1 = ["-std=c++11"] ∧
    (cxxflags_check (fun _ _ => true)
        (cxxflags_check (fun _ _ => true) [] "g++" ["-std=c++11"]).2.1
        "g++" ["-std=c++11"]).2.2 = 1 :=
  fzconf_C3 (fun _ _ => true) [] "g++" rfl rfl

/-- Identity path resolution: all files live in the working directory and
includes are plain relative names. -/
def rpId : String → String → String := fun _ inc => inc

/-- A one-file file system: `main.cpp` with no local includes. -/
def fsMain : FSys := [("main.cpp", ["int x;"])]

/-- Boolean success test for a project construction. -/
def exceptOkB : Except String Project → Bool
  | .ok _ => true
  | .error _ => false

/-- Counterexample for C2: a project with inputs `["a.c", "b.cpp"]` and no
explicit language does NOT raise — construction succeeds. -/
theorem fzconf_C2_cex :
    exceptOkB (Project.init "app" ["a.c", "b.cpp"] {} [] rpId) = true := by
  decide

/-- C2 (amended): with inputs `["a.c", "b.cpp"]` and no explicit
language, `Project.__init__` raises nothing: it first infers `c` from
`a.c`, silently upgrades the project to `c++` on seeing `b.cpp`, and
produces intermediate rules for both inputs — `a.c` compiled with the C
compiler command, `b.cpp` with the C++ one. -/
theorem fzconf_C2 :
    exceptOkB (Project.init "app" ["a.c", "b.cpp"] {} [] rpId) = true ∧
    (projOf (Project.init "app" ["a.c", "b.cpp"] {} [] rpId)).lang = some "c++" ∧
    (projOf (Project.init "app" ["a.c", "b.cpp"] {} [] rpId)).ints =
      ["$(INTDIR)a.c.o", "$(INTDIR)b.cpp.o"] ∧
    lookupR (projOf (Project.init "app" ["a.c", "b.cpp"] {} [] rpId)).rules
      "$(INTDIR)a.c.o" =
      some (["a.c"],
        [mkdirCmd,
         Cmd.toks ["$(CC)", "$(CPPFLAGS)", "$(CFLAGS)", "-o", "$@", "-c", "a.c"]]) ∧
    lookupR (projOf (Project.init "app" ["a.c", "b.cpp"] {} [] rpId)).rules
      "$(INTDIR)b.cpp.o" =
      some (["b.cpp"],
        [mkdirCmd,
         Cmd.toks ["$(CXX)", "$(CPPFLAGS)", "$(CXXFLAGS)", "-o", "$@", "-c", "b.cpp"]]) := by
  decide

/-- Counterexample for C4: with the default output directory the project
name `"app"` differs from the output path `"$(OUTDIR)app"`, so a phony
alias rule `app -> [$(OUTDIR)app]` IS registered, contrary to the
claim's "no alias rule". -/
theorem fzconf_C4_cex :
    "app" ∈ (projOf (Project.init "app" ["main.cpp"] {} fsMain rpId)).phonys ∧
    lookupR (projOf (Project.init "app" ["main.cpp"] {} fsMain rpId)).rules
      "app" = some (["$(OUTDIR)app"], []) := by
  decide

/-- C4 (amended): the project `"app"` with one include-free input
`main.cpp` and default directories produces exactly the intermediate
rule for `$(INTDIR)main.cpp.o` with prerequisite set `{main.cpp}`, the
link rule for `$(OUTDIR)app` with prerequisite set
`{$(INTDIR)main.cpp.o}` — and additionally the phony alias rule
`app -> [$(OUTDIR)app]`, because the name differs from the output path
(`out = outdir + outname = "$(OUTDIR)app" ≠ "app"`). -/
theorem fzconf_C4 :
    exceptOkB (Project.init "app" ["main.cpp"] {} fsMain rpId) = true ∧
    (projOf (Project.init "app" ["main.cpp"] {} fsMain rpId)).rules =
      [("$(INTDIR)main.cpp.o", (["main.cpp"],
         [mkdirCmd,
          Cmd.toks ["$(CXX)", "$(CPPFLAGS)", "$(CXXFLAGS)", "-o", "$@", "-c",
            "main.cpp"]])),
       ("$(OUTDIR)app", (["$(INTDIR)main.cpp.o"],
         [mkdirCmd,
          Cmd.toks ["$(CXX)", "$(CPPFLAGS)", "$(CXXFLAGS)", "-o", "$@",
            "$(INTDIR)main.cpp.o"]])),
       ("app", (["$(OUTDIR)app"], []))] ∧
    (projOf (Project.init "app" ["main.cpp"] {} fsMain rpId)).phonys = ["app"] := by
  decide

/-- C8: merging the same project fragment into an empty makefile twice
yields the same target-to-rule mapping, clean set, phony set and default
target as merging it once; `dict.update` overwrites rather than appends,
so no rule's command list is duplicated. -/
theorem fzconf_C8 (p : Project) :
    (∀ k, lookupR ((Makefile.new.import_projects [p]).import_projects [p]).rules k =
          lookupR (Makefile.new.import_projects [p]).rules k) ∧
    (∀ x, x ∈ ((Makefile.new.import_projects [p]).import_projects [p]).cleans ↔
          x ∈ (Makefile.new.import_projects [p]).cleans) ∧
    (∀ x, x ∈ ((Makefile.new.import_projects [p]).import_projects [p]).phonys ↔
          x ∈ (Makefile.new.import_projects [p]).phonys) ∧
    ((Makefile.new.import_projects [p]).import_projects [p]).first_target =
      (Makefile.new.import_projects [p]).first_target := by
  have hg1 : Makefile.new.import_projects [p] =
      { rules := updateAll [] p.rules
        cleans := setUnion [] p.outs
        phonys := setUnion ["all", "build", "clean", "install", "test"] p.phonys
        first_target := some p.name } := by
    unfold Makefile.import_projects Makefile.new
    simp [optFalsy]
  rw [hg1]
  have hg2 : Makefile.import_projects
      { rules := updateAll [] p.rules
        cleans := setUnion [] p.outs
        phonys := setUnion ["all", "build", "clean", "install", "test"] p.phonys
        first_target := some p.name } [p] =
      { rules := updateAll (updateAll [] p.rules) p.rules
        cleans := setUnion (setUnion [] p.outs) p.outs
        phonys := setUnion
          (setUnion ["all", "build", "clean", "install", "test"] p.phonys) p.phonys
        first_target := some p.name } := by
    unfold Makefile.import_projects
    by_cases hp : p.name = "" <;> simp [optFalsy, hp]
  rw [hg2]
  refine ⟨?_, ?_, ?_, rfl⟩
  · intro k
    simp only [lookupR_updateAll]
    cases lookupR p.rules.reverse k <;> simp [oOr, lookupR]
  · intro x
    simp only [mem_setUnion]
    tauto
  · intro x
    simp only [mem_setUnion]
    tauto

/-- `_proc_linkage` only touches `rules` and `outs`. -/
theorem proc_linkage_fields (st : Project) (c : List String) (out : String) :
    (st.proc_linkage c out).phonys = st.phonys ∧
    (st.proc_linkage c out).out = st.out ∧
    (st.proc_linkage c out).postexec = st.postexec ∧
    (st.proc_linkage c out).postbuild = st.postbuild ∧
    (st.proc_linkage c out).lang = st.lang ∧
    (st.proc_linkage c out).ints = st.ints ∧
    (st.proc_linkage c out).extdeps = st.extdeps ∧
    (st.proc_linkage c out).linkflags = st.linkflags ∧
    (st.proc_linkage c out).cc = st.cc ∧
    (st.proc_linkage c out).cxx = st.cxx := by
  unfold Project.proc_linkage
  simp

/-- On a state with no phony targets yet, the final lines of `__init__`
register the phony alias exactly when the name differs from the output
path, and the alias rule is `name -> [out]` with the post-exec commands. -/
theorem aliasTail (name : String) (st3 : Project) (hph : st3.phonys = []) :
    ((name ∈ (Project.finishTail name st3).phonys) ↔ name ≠ st3.out) ∧
    (name ≠ st3.out →
      lookupR (Project.finishTail name st3).rules name =
        some ([st3.out], st3.postexec)) := by
  rw [finishTail_phonys, hph]
  by_cases hne : name = st3.out
  · rw [if_neg (fun k => k hne)]
    constructor
    · simp [hne]
    · intro hn
      exact absurd hne hn
  · rw [if_pos hne]
    constructor
    · simp [mem_insNew, hne]
    · intro _
      exact (finishTail_rules_ne name st3 hne).1

/-- C6: for every successfully built project whose language is set (any
non-empty language, including header languages), a phony alias rule is
registered if and only if the project name differs from the final output
path, and when it is registered it maps the name to the single
prerequisite `[out]` and carries exactly the caller's post-exec
commands. -/
theorem fzconf_C6 (name : String) (inputs : List String) (a : ProjectArgs)
    (fs : FSys) (rp : String → String → String) (st : Project)
    (h : Project.init name inputs a fs rp = .ok st)
    (hl : optFalsy st.lang = false) :
    (name ∈ st.phonys ↔ name ≠ st.out) ∧
    (name ≠ st.out → lookupR st.rules name = some ([st.out], a.postexec)) := by
  by_cases hh : a.lang = some "c-header" ∨ a.lang = some "c++-header"
  · obtain ⟨st2, hstage, hst⟩ := init_header h hh
    obtain ⟨hph, hlg, hpb, hpe, hout, hints⟩ := headerStage_fields hstage
    have hph0 : st2.phonys = [] := by rw [hph]; rfl
    have hpe0 : st2.postexec = a.postexec := by rw [hpe]; rfl
    obtain ⟨ho, _, _, _, _, _, _, _, hpe2⟩ := finishTail_fields name st2
    have ⟨c1, c2⟩ := aliasTail name st2 hph0
    subst hst
    rw [ho]
    rw [hpe0] at c2
    exact ⟨c1, c2⟩
  · obtain ⟨st2, st3, hproc, hfin, hst⟩ := init_generic h hh
    obtain ⟨_, _, _, _, hph2, _, _, _, hpe2, _, _⟩ := processInputs_pres hproc
    have hph20 : st2.phonys = [] := by rw [hph2]; rfl
    have hpe20 : st2.postexec = a.postexec := by rw [hpe2]; rfl
    have hlang : st.lang = st3.lang := by
      subst hst
      exact (finishTail_fields name st3).2.1
    unfold Project.genericFinish at hfin
    split_ifs at hfin with hf1 hf2 hf3
    · injection hfin with hfin
      exfalso
      have hl3 : st3.lang = st2.lang := by rw [← hfin]
      rw [hlang, hl3] at hl
      rw [hl] at hf1
      exact Bool.noConfusion hf1
    · injection hfin with hfin
      have hph30 : st3.phonys = [] := by
        rw [← hfin, (proc_linkage_fields st2 st2.cxx st2.out).1, hph20]
      have hpe30 : st3.postexec = a.postexec := by
        rw [← hfin, (proc_linkage_fields st2 st2.cxx st2.out).2.2.1, hpe20]
      obtain ⟨ho, _, _, _, _, _, _, _, _⟩ := finishTail_fields name st3
      have ⟨c1, c2⟩ := aliasTail name st3 hph30
      subst hst
      rw [ho]
      rw [hpe30] at c2
      exact ⟨c1, c2⟩
    · injection hfin with hfin
      have hph30 : st3.phonys = [] := by
        rw [← hfin, (proc_linkage_fields st2 st2.cc st2.out).1, hph20]
      have hpe30 : st3.postexec = a.postexec := by
        rw [← hfin, (proc_linkage_fields st2 st2.cc st2.out).2.2.1, hpe20]
      obtain ⟨ho, _, _, _, _, _, _, _, _⟩ := finishTail_fields name st3
      have ⟨c1, c2⟩ := aliasTail name st3 hph30
      subst hst
      rw [ho]
      rw [hpe30] at c2
      exact ⟨c1, c2⟩

/-- Witness for C6 at the spec's concrete instance: name `"app"`, output
name `"program"`, so the graph contains the phony alias rule
`app -> [$(OUTDIR)program]`. -/
theorem fzconf_C6_witness :
    ("app" ∈ (projOf (Project.init "app" ["main.cpp"]
        { outname := some "program" } fsMain rpId)).phonys ↔
      "app" ≠ (projOf (Project.init "app" ["main.cpp"]
        { outname := some "program" } fsMain rpId)).out) ∧
    ("app" ≠ (projOf (Project.init "app" ["main.cpp"]
        { outname := some "program" } fsMain rpId)).out →
      lookupR (projOf (Project.init "app" ["main.cpp"]
        { outname := some "program" } fsMain rpId)).rules "app" =
        some ([(projOf (Project.init "app" ["main.cpp"]
          { outname := some "program" } fsMain rpId)).out], [])) :=
  fzconf_C6 "app" ["main.cpp"] { outname := some "program" } fsMain rpId
    (projOf (Project.init "app" ["main.cpp"] { outname := some "program" }
      fsMain rpId)) rfl rfl

/-- Rule mapping and phony set after linking and the final lines of
`__init__`, stated over the pre-link state. -/
theorem linkTail (name : String) (st2 : Project) (cpl : List String) :
    (Project.finishTail name (st2.proc_linkage cpl st2.out)).phonys =
      (if name = st2.out then st2.phonys else insNew st2.phonys name) ∧
    ∃ tail, tail = (if name = st2.out then st2.postbuild ++ st2.postexec
                    else st2.postbuild) ∧
      lookupR (Project.finishTail name (st2.proc_linkage cpl st2.out)).rules
        st2.out =
        some (setUnion st2.ints st2.extdeps,
          [mkdirCmd, Cmd.toks (linkTokens cpl st2.ints st2.linkflags)] ++ tail) := by
  have hlk : lookupR (st2.proc_linkage cpl st2.out).rules st2.out =
      some (setUnion st2.ints st2.extdeps,
        [mkdirCmd, Cmd.toks (linkTokens cpl st2.ints st2.linkflags)]) := by
    unfold Project.proc_linkage
    simp only
    rw [lookupR_insertOver, if_pos rfl]
  obtain ⟨pph, pout, ppe, ppb, _, _, _, _, _, _⟩ :=
    proc_linkage_fields st2 cpl st2.out
  constructor
  · rw [finishTail_phonys, pout, pph]
    by_cases hne : name = st2.out
    · rw [if_neg (fun k => k hne), if_pos hne]
    · rw [if_pos hne, if_neg hne]
  · by_cases hne : name = st2.out
    · refine ⟨st2.postbuild ++ st2.postexec, by rw [if_pos hne], ?_⟩
      have heq : name = (st2.proc_linkage cpl st2.out).out := by rw [pout]; exact hne
      have := finishTail_rules_eq name (st2.proc_linkage cpl st2.out) heq st2.out
      rw [pout] at this
      rw [this, if_pos rfl, hlk, ppb, ppe]
      simp
    · have hne2 : name ≠ (st2.proc_linkage cpl st2.out).out := by
        rw [pout]; exact hne
      refine ⟨st2.postbuild, by rw [if_neg hne], ?_⟩
      obtain ⟨_, hout2, hrest⟩ := finishTail_rules_ne name _ hne2
      rw [pout] at hout2
      rw [hout2, hlk, ppb]
      simp

/-- Dissection of a successful `__init__` whose language resolved to `c`
or `c++`: the phony set and the final-output rule. -/
theorem init_link_rule (name : String) (inputs : List String) (a : ProjectArgs)
    (fs : FSys) (rp : String → String → String) (st : Project)
    (h : Project.init name inputs a fs rp = .ok st)
    (hl : st.lang = some "c" ∨ st.lang = some "c++") :
    st.phonys = (if name = st.out then [] else [name]) ∧
    ∃ tail, tail = (if name = st.out then a.postbuild ++ a.postexec
                    else a.postbuild) ∧
      lookupR st.rules st.out =
        some (setUnion st.ints st.extdeps,
          [mkdirCmd,
           Cmd.toks (linkTokens (if st.lang = some "c++" then st.cxx else st.cc)
             st.ints st.linkflags)] ++ tail) := by
  by_cases hh : a.lang = some "c-header" ∨ a.lang = some "c++-header"
  · exfalso
    obtain ⟨st2, hstage, hst⟩ := init_header h hh
    obtain ⟨_, hlg, _, _, _, _⟩ := headerStage_fields hstage
    have h1 : st.lang = a.lang := by
      subst hst
      rw [(finishTail_fields name st2).2.1, hlg]
      rfl
    rcases hh with hh | hh <;> rcases hl with hl | hl <;>
      rw [h1, hh] at hl <;> simp at hl
  · obtain ⟨st2, st3, hproc, hfin, hst⟩ := init_generic h hh
    obtain ⟨hcc, hcxx, hed, hlf, hph2, hout2, _, hpb2, hpe2, _, _⟩ :=
      processInputs_pres hproc
    have hph20 : st2.phonys = [] := by rw [hph2]; rfl
    have hpb20 : st2.postbuild = a.postbuild := by rw [hpb2]; rfl
    have hpe20 : st2.postexec = a.postexec := by rw [hpe2]; rfl
    have hlang : st.lang = st3.lang := by
      subst hst
      exact (finishTail_fields name st3).2.1
    unfold Project.genericFinish at hfin
    split_ifs at hfin with hf1 hf2 hf3
    · exfalso
      injection hfin with hfin
      have hl3 : st3.lang = st2.lang := by rw [← hfin]
      rcases hl with hl | hl <;> rw [hlang, hl3] at hl <;> rw [hl] at hf1 <;>
        exact Bool.noConfusion hf1
    · -- link C++
      injection hfin with hfin
      have hlg : st.lang = some "c++" := by
        rw [hlang, ← hfin, (proc_linkage_fields st2 st2.cxx st2.out).2.2.2.2.1, hf2]
      subst hfin
      subst hst
      obtain ⟨hto, htl, hti, hte, htc, htx, htf, _, _⟩ :=
        finishTail_fields name (st2.proc_linkage st2.cxx st2.out)
      obtain ⟨plph, plo, _, _, _, pli, ple, plf, plc, plx⟩ :=
        proc_linkage_fields st2 st2.cxx st2.out
      obtain ⟨c1, tail, htail, c2⟩ := linkTail name st2 st2.cxx
      rw [hlg]
      simp only [if_pos rfl]
      constructor
      · rw [c1, hph20] at *
        rw [hto, plo]
        by_cases hne : name = st2.out
        · rw [if_pos hne, if_pos hne]
        · rw [if_neg hne, if_neg hne]
          simp [insNew]
      · refine ⟨tail, ?_, ?_⟩
        · rw [htail, hto, plo, hpb20, hpe20]
        · rw [hto, plo, hti, pli, hte, ple, htf, plf, htx, plx, c2]
          simp
    · -- link C
      injection hfin with hfin
      have hlg : st.lang = some "c" := by
        rw [hlang, ← hfin, (proc_linkage_fields st2 st2.cc st2.out).2.2.2.2.1, hf3]
      have hlgne : ¬ st.lang = some "c++" := by rw [hlg]; simp
      subst hfin
      subst hst
      obtain ⟨hto, htl, hti, hte, htc, htx, htf, _, _⟩ :=
        finishTail_fields name (st2.proc_linkage st2.cc st2.out)
      obtain ⟨plph, plo, _, _, _, pli, ple, plf, plc, plx⟩ :=
        proc_linkage_fields st2 st2.cc st2.out
      obtain ⟨c1, tail, htail, c2⟩ := linkTail name st2 st2.cc
      rw [if_neg hlgne]
      constructor
      · rw [c1, hph20] at *
        rw [hto, plo]
        by_cases hne : name = st2.out
        · rw [if_pos hne, if_pos hne]
        · rw [if_neg hne, if_neg hne]
          simp [insNew]
      · refine ⟨tail, ?_, ?_⟩
        · rw [htail, hto, plo, hpb20, hpe20]
        · rw [hto, plo, hti, pli, hte, ple, htf, plf, htc, plc, c2]

/-- C5: for every successfully built project whose language resolved to
`c` or `c++`, the link command is the language-appropriate compiler
invocation with every `-std=`-prefixed flag removed, then `-o $@`, then
the intermediate objects in lexicographically sorted order, then the
declared link flags last; the sorted object segment is a permutation of
the project's intermediate set. -/
theorem fzconf_C5 (name : String) (inputs : List String) (a : ProjectArgs)
    (fs : FSys) (rp : String → String → String) (st : Project)
    (h : Project.init name inputs a fs rp = .ok st)
    (hl : st.lang = some "c" ∨ st.lang = some "c++") :
    ∃ tail,
      lookupR st.rules st.out =
        some (setUnion st.ints st.extdeps,
          [mkdirCmd,
           Cmd.toks ((if st.lang = some "c++" then st.cxx else st.cc).filter
               (fun f => !(strStarts f "-std=")) ++
             ["-o", "$@"] ++ sortStr st.ints ++ st.linkflags)] ++ tail) ∧
      (∀ f ∈ (if st.lang = some "c++" then st.cxx else st.cc).filter
          (fun f => !(strStarts f "-std=")), strStarts f "-std=" = false) ∧
      List.Sorted (fun x y => strLeB x y = true) (sortStr st.ints) ∧
      (sortStr st.ints).Perm st.ints := by
  obtain ⟨_, tail, _, hrule⟩ := init_link_rule name inputs a fs rp st h hl
  refine ⟨tail, ?_, ?_, sortStr_sorted _, sortStr_perm _⟩
  · rw [hrule]
    rfl
  · intro f hf
    have hp := List.of_mem_filter hf
    simpa using hp

/-- Witness for C5 at the concrete one-input C++ project `"app"`. -/
theorem fzconf_C5_witness :
    ∃ tail,
      lookupR (projOf (Project.init "app" ["main.cpp"] {} fsMain rpId)).rules
        (projOf (Project.init "app" ["main.cpp"] {} fsMain rpId)).out =
        some (setUnion (projOf (Project.init "app" ["main.cpp"] {} fsMain rpId)).ints
            (projOf (Project.init "app" ["main.cpp"] {} fsMain rpId)).extdeps,
          [mkdirCmd,
           Cmd.toks ((if (projOf (Project.init "app" ["main.cpp"] {} fsMain rpId)).lang = some "c++"
               then (projOf (Project.init "app" ["main.cpp"] {} fsMain rpId)).cxx
               else (projOf (Project.init "app" ["main.cpp"] {} fsMain rpId)).cc).filter
               (fun f => !(strStarts f "-std=")) ++
             ["-o", "$@"] ++
             sortStr (projOf (Project.init "app" ["main.cpp"] {} fsMain rpId)).ints ++
             (projOf (Project.init "app" ["main.cpp"] {} fsMain rpId)).linkflags)] ++ tail) ∧
      (∀ f ∈ (if (projOf (Project.init "app" ["main.cpp"] {} fsMain rpId)).lang = some "c++"
          then (projOf (Project.init "app" ["main.cpp"] {} fsMain rpId)).cxx
          else (projOf (Project.init "app" ["main.cpp"] {} fsMain rpId)).cc).filter
          (fun f => !(strStarts f "-std=")), strStarts f "-std=" = false) ∧
      List.Sorted (fun x y => strLeB x y = true)
        (sortStr (projOf (Project.init "app" ["main.cpp"] {} fsMain rpId)).ints) ∧
      (sortStr (projOf (Project.init "app" ["main.cpp"] {} fsMain rpId)).ints).Perm
        (projOf (Project.init "app" ["main.cpp"] {} fsMain rpId)).ints :=
  fzconf_C5 "app" ["main.cpp"] {} fsMain rpId
    (projOf (Project.init "app" ["main.cpp"] {} fsMain rpId)) rfl (Or.inr rfl)

/-- C9 (amended): for every successfully built project whose language
resolved to `c` or `c++` — for which the final output path is exactly
the output directory concatenated with the output name — if the project
name equals that output path then no phony alias is registered (the
phony set is empty) and the single output rule's command list is the
build commands followed by the caller's post-build commands and then the
post-exec commands, in that order.  (For precompiled-header projects the
final output gains the `$(PCHEXT)` suffix, so an alias is registered
even when the name equals outdir ++ outname; see the counterexample.) -/
theorem fzconf_C9 (name : String) (inputs : List String) (a : ProjectArgs)
    (fs : FSys) (rp : String → String → String) (st : Project)
    (h : Project.init name inputs a fs rp = .ok st)
    (hl : st.lang = some "c" ∨ st.lang = some "c++")
    (hn : name = st.out) :
    st.phonys = [] ∧
    lookupR st.rules name =
      some (setUnion st.ints st.extdeps,
        ([mkdirCmd,
          Cmd.toks (linkTokens (if st.lang = some "c++" then st.cxx else st.cc)
            st.ints st.linkflags)] ++ a.postbuild) ++ a.postexec) := by
  obtain ⟨hph, tail, htail, hrule⟩ := init_link_rule name inputs a fs rp st h hl
  rw [if_pos hn] at hph htail
  refine ⟨hph, ?_⟩
  rw [hn, hrule, htail]
  simp

/-- Counterexample for C9 as stated: a `c++-header` project whose name
equals the output directory concatenated with the output name still
registers a phony alias rule (the effective output is the precompiled
artifact with the `$(PCHEXT)` suffix, which differs from the name). -/
theorem fzconf_C9_cex :
    "$(OUTDIR)hdr" = "$(OUTDIR)" ++ "hdr" ∧
    "$(OUTDIR)hdr" ∈ (projOf (Project.init "$(OUTDIR)hdr" ["<vector>"]
      { outname := some "hdr", lang := some "c++-header" } [] rpId)).phonys ∧
    lookupR (projOf (Project.init "$(OUTDIR)hdr" ["<vector>"]
        { outname := some "hdr", lang := some "c++-header" } [] rpId)).rules
      "$(OUTDIR)hdr" = some (["$(OUTDIR)hdr$(PCHEXT)"], []) := by
  decide

/-- Witness for C9: the project named `"$(OUTDIR)app"` with output name
`"app"` and the default output directory, so that the name equals the
output path. -/
theorem fzconf_C9_witness :
    (projOf (Project.init "$(OUTDIR)app" ["main.cpp"]
      { outname := some "app" } fsMain rpId)).phonys = [] ∧
    lookupR (projOf (Project.init "$(OUTDIR)app" ["main.cpp"]
        { outname := some "app" } fsMain rpId)).rules "$(OUTDIR)app" =
      some (setUnion
          (projOf (Project.init "$(OUTDIR)app" ["main.cpp"]
            { outname := some "app" } fsMain rpId)).ints
          (projOf (Project.init "$(OUTDIR)app" ["main.cpp"]
            { outname := some "app" } fsMain rpId)).extdeps,
        ([mkdirCmd,
          Cmd.toks (linkTokens
            (if (projOf (Project.init "$(OUTDIR)app" ["main.cpp"]
                { outname := some "app" } fsMain rpId)).lang = some "c++"
             then (projOf (Project.init "$(OUTDIR)app" ["main.cpp"]
                { outname := some "app" } fsMain rpId)).cxx
             else (projOf (Project.init "$(OUTDIR)app" ["main.cpp"]
                { outname := some "app" } fsMain rpId)).cc)
            (projOf (Project.init "$(OUTDIR)app" ["main.cpp"]
              { outname := some "app" } fsMain rpId)).ints
            (projOf (Project.init "$(OUTDIR)app" ["main.cpp"]
              { outname := some "app" } fsMain rpId)).linkflags)] ++ []) ++ []) :=
  fzconf_C9 "$(OUTDIR)app" ["main.cpp"] { outname := some "app" } fsMain rpId
    (projOf (Project.init "$(OUTDIR)app" ["main.cpp"] { outname := some "app" }
      fsMain rpId)) rfl (Or.inr rfl) rfl

/-- Invariant: every intermediate target has its compile rule, with the
given path among its prerequisites and a known compiler invocation. -/
def IntsOK (d : String) (st : Project) : Prop :=
  ∀ k ∈ st.ints, ∃ deps inp cpl,
    lookupR st.rules k =
      some (deps, [mkdirCmd, Cmd.toks (cpl ++ ["-o", "$@", "-c", inp])]) ∧
    d ∈ deps ∧ (cpl = st.cc ∨ cpl = st.cxx)

/-- `_proc_intermediate` on an already-registered target is a no-op. -/
theorem proc_intermediate_hit {fs : FSys} {rp : String → String → String}
    {st : Project} {c : List String} {inp : String} {v : RuleBody}
    (hlk : lookupR st.rules (st.intdir ++ inp ++ ".o") = some v) :
    Project.proc_intermediate fs rp st c inp = .ok st := by
  simp only [Project.proc_intermediate]
  rw [hlk]

/-- `_proc_intermediate` on a fresh target registers its compile rule. -/
theorem proc_intermediate_miss {fs : FSys} {rp : String → String → String}
    {st : Project} {c : List String} {inp : String}
    {fd : List String × List String}
    (hlk : lookupR st.rules (st.intdir ++ inp ++ ".o") = none)
    (hfd : find_deps_cpp fs rp inp = some fd) :
    Project.proc_intermediate fs rp st c inp = .ok { st with
      rules := insertOver st.rules (st.intdir ++ inp ++ ".o",
        (setUnion fd.1 st.extdeps,
         [mkdirCmd, Cmd.toks (c ++ ["-o", "$@", "-c", inp])]))
      ints := st.ints ++ [st.intdir ++ inp ++ ".o"] } := by
  simp only [Project.proc_intermediate]
  rw [hlk, hfd]

/-- `_proc_intermediate` preserves the intermediate-rule invariant. -/
theorem intsOK_proc_intermediate {fs : FSys} {rp : String → String → String}
    {st : Project} {c : List String} {inp : String} {st' : Project}
    (d : String) (h : Project.proc_intermediate fs rp st c inp = .ok st')
    (hcpl : c = st.cc ∨ c = st.cxx) (hd : d ∈ st.extdeps)
    (hinv : IntsOK d st) : IntsOK d st' := by
  cases hlk : lookupR st.rules (st.intdir ++ inp ++ ".o") with
  | some v =>
    rw [proc_intermediate_hit hlk] at h
    injection h with h
    subst h
    exact hinv
  | none =>
    cases hfd : find_deps_cpp fs rp inp with
    | none =>
      simp only [Project.proc_intermediate] at h
      rw [hlk, hfd] at h
      exact Except.noConfusion h
    | some fd =>
      rw [proc_intermediate_miss hlk hfd] at h
      injection h with h
      subst h
      intro k hk
      rw [show ({ st with
          rules := insertOver st.rules (st.intdir ++ inp ++ ".o",
            (setUnion fd.1 st.extdeps,
             [mkdirCmd, Cmd.toks (c ++ ["-o", "$@", "-c", inp])]))
          ints := st.ints ++ [st.intdir ++ inp ++ ".o"] } : Project).ints =
        st.ints ++ [st.intdir ++ inp ++ ".o"] from rfl, List.mem_append] at hk
      rcases hk with hk | hk
      · obtain ⟨deps, inp0, cpl, hr, hd0, hc0⟩ := hinv k hk
        refine ⟨deps, inp0, cpl, ?_, hd0, hc0⟩
        show lookupR (insertOver st.rules _) k = _
        rw [lookupR_insertOver, if_neg ?hne]
        · exact hr
        case hne =>
          intro he
          have he2 : st.intdir ++ inp ++ ".o" = k := he
          rw [← he2, hlk] at hr
          exact Option.noConfusion hr
      · rw [List.mem_singleton] at hk
        subst hk
        refine ⟨setUnion fd.1 st.extdeps, inp, c, ?_,
          (mem_setUnion _ _ _).mpr (Or.inr hd), hcpl⟩
        show lookupR (insertOver st.rules _) _ = _
        rw [lookupR_insertOver, if_pos rfl]

/-- The per-input dispatch preserves the intermediate-rule invariant. -/
theorem intsOK_processInput {fs : FSys} {rp : String → String → String}
    {st : Project} {inp : String} {st' : Project} (d : String)
    (h : processInput fs rp st inp = .ok st')
    (hd : d ∈ st.extdeps) (hinv : IntsOK d st) : IntsOK d st' := by
  simp only [processInput] at h
  split at h
  · split at h
    · exact intsOK_proc_intermediate d h (Or.inr rfl) hd hinv
    · split at h
      · exact Except.noConfusion h
      · exact intsOK_proc_intermediate d h (Or.inr rfl) hd hinv
  · split at h
    · split at h
      · exact intsOK_proc_intermediate d h (Or.inl rfl) hd hinv
      · split at h
        · exact Except.noConfusion h
        · exact intsOK_proc_intermediate d h (Or.inl rfl) hd hinv
    · exact Except.noConfusion h

/-- The compilation stage preserves the intermediate-rule invariant. -/
theorem intsOK_processInputs {fs : FSys} {rp : String → String → String} :
    ∀ {inputs : List String} {st st' : Project} (d : String),
    processInputs fs rp inputs st = .ok st' →
    d ∈ st.extdeps → IntsOK d st → IntsOK d st' := by
  intro inputs
  induction inputs with
  | nil =>
    intro st st' d h hd hinv
    injection h with h
    subst h
    exact hinv
  | cons inp rest ih =>
    intro st st' d h hd hinv
    unfold processInputs at h
    split at h
    · exact Except.noConfusion h
    · next st2 heq =>
      have hed := (processInput_pres heq).2.2.1
      exact ih d h (hed ▸ hd) (intsOK_processInput d heq hd hinv)

/-- Linking to a non-intermediate target preserves the invariant. -/
theorem intsOK_proc_linkage (d : String) (st : Project) (c : List String)
    (out : String) (hout : out ∉ st.ints) (hinv : IntsOK d st) :
    IntsOK d (st.proc_linkage c out) := by
  intro k hk
  have hk0 : k ∈ st.ints := hk
  obtain ⟨deps, inp0, cpl, hr, hd0, hc0⟩ := hinv k hk0
  refine ⟨deps, inp0, cpl, ?_, hd0, hc0⟩
  show lookupR (insertOver st.rules _) k = _
  rw [lookupR_insertOver, if_neg ?hne]
  · exact hr
  case hne =>
    intro he
    have he2 : out = k := he
    apply hout
    rw [he2]
    exact hk0

/-- The final lines of `__init__` preserve the invariant when neither
the name nor the output path is an intermediate target. -/
theorem intsOK_finishTail (d : String) (name : String) (st : Project)
    (hout : st.out ∉ st.ints) (hname : name ∉ st.ints)
    (hinv : IntsOK d st) : IntsOK d (Project.finishTail name st) := by
  intro k hk
  have hints := (finishTail_fields name st).2.2.1
  rw [hints] at hk
  obtain ⟨deps, inp0, cpl, hr, hd0, hc0⟩ := hinv k hk
  have hkn : ¬ name = k := by
    intro he
    apply hname
    rw [he]
    exact hk
  have hko : ¬ st.out = k := by
    intro he
    apply hout
    rw [he]
    exact hk
  refine ⟨deps, inp0, cpl, ?_, hd0, ?_⟩
  · by_cases hne : name = st.out
    · rw [finishTail_rules_eq name st hne k, if_neg hko]
      exact hr
    · rw [(finishTail_rules_ne name st hne).2.2 k (fun e => hkn e.symm)
        (fun e => hko e.symm)]
      exact hr
  · rw [(finishTail_fields name st).2.2.2.2.1, (finishTail_fields name st).2.2.2.2.2.1]
    exact hc0

/-- Invariant and stable fields after linking plus the final lines. -/
theorem c10_branch (name : String) (st2 : Project) (cpl : List String)
    (st : Project) (d : String)
    (hst : st = Project.finishTail name (st2.proc_linkage cpl st2.out))
    (ho : st.out ∉ st.ints) (hn : name = st.out ∨ name ∉ st.ints)
    (hinv2 : IntsOK d st2) :
    IntsOK d st ∧ st.cc = st2.cc ∧ st.cxx = st2.cxx ∧
    st.extdeps = st2.extdeps := by
  obtain ⟨plph, plo, plpe, plpb, pllg, pli, ple, plf, plcc, plcx⟩ :=
    proc_linkage_fields st2 cpl st2.out
  obtain ⟨fto, ftl, fti, fte, ftc, ftx, ftf, ftpb, ftpe⟩ :=
    finishTail_fields name (st2.proc_linkage cpl st2.out)
  have hco : st.out = st2.out := by rw [hst, fto, plo]
  have hci : st.ints = st2.ints := by rw [hst, fti, pli]
  have hccs : st.cc = st2.cc := by rw [hst, ftc, plcc]
  have hcxs : st.cxx = st2.cxx := by rw [hst, ftx, plcx]
  have heds : st.extdeps = st2.extdeps := by rw [hst, fte, ple]
  have ho2 : st2.out ∉ st2.ints := by
    rw [← hco, ← hci]
    exact ho
  have hinv3 := intsOK_proc_linkage d st2 cpl st2.out ho2 hinv2
  have ho3 : (st2.proc_linkage cpl st2.out).out ∉
      (st2.proc_linkage cpl st2.out).ints := by
    rw [plo, pli]
    exact ho2
  have hn3 : name ∉ (st2.proc_linkage cpl st2.out).ints := by
    rw [pli]
    rcases hn with hn | hn
    · rw [hn, hco]
      exact ho2
    · rw [← hci]
      exact hn
  have hfin := intsOK_finishTail d name _ ho3 hn3 hinv3
  rw [← hst] at hfin
  exact ⟨hfin, hccs, hcxs, heds⟩

/-- The C invocation has no `-include` unless the caller supplied one. -/
theorem mkCcList_no_include (a : ProjectArgs)
    (hc1 : "-include" ∉ a.cppflags) (hc2 : "-include" ∉ a.cflags) :
    "-include" ∉ mkCcList a := by
  intro hm
  rw [mkCcList] at hm
  rcases List.mem_append.mp hm with hm | hm
  · rcases List.mem_append.mp hm with hm | hm
    · rcases List.mem_append.mp hm with hm | hm
      · exact absurd hm (by decide)
      · exact hc1 hm
    · exact absurd hm (by decide)
  · exact hc2 hm

/-- C10 (amended): for every non-header project with a non-empty
precompiled-header reference P whose language resolved to `c` or `c++`
(and whose name and output path do not collide with an intermediate
target), the C++ compiler invocation carries the extra arguments
`-include $(INTDIR)P` (immediately before the `-o $@ -c <input>` tail of
each compile command, not at the very end of the command), the path
`$(INTDIR)P$(PCHEXT)` is in every intermediate compile rule's
prerequisite set and in the link rule's prerequisite set, and the C
compiler invocation receives no `-include` argument. -/
theorem fzconf_C10 (name : String) (inputs : List String) (a : ProjectArgs)
    (fs : FSys) (rp : String → String → String) (st : Project)
    (h : Project.init name inputs a fs rp = .ok st)
    (hp : a.precompiled ≠ "")
    (hl : st.lang = some "c" ∨ st.lang = some "c++")
    (ho : st.out ∉ st.ints)
    (hn : name = st.out ∨ name ∉ st.ints)
    (hc1 : "-include" ∉ a.cppflags) (hc2 : "-include" ∉ a.cflags) :
    st.cxx = mkCxxBase a ++ ["-include", "$(INTDIR)" ++ a.precompiled] ∧
    "-include" ∉ st.cc ∧
    (∀ k ∈ st.ints, ∃ deps inp cpl,
      lookupR st.rules k =
        some (deps, [mkdirCmd, Cmd.toks (cpl ++ ["-o", "$@", "-c", inp])]) ∧
      "$(INTDIR)" ++ a.precompiled ++ "$(PCHEXT)" ∈ deps ∧
      (cpl = st.cc ∨ cpl = st.cxx)) ∧
    (∃ deps cmds, lookupR st.rules st.out = some (deps, cmds) ∧
      "$(INTDIR)" ++ a.precompiled ++ "$(PCHEXT)" ∈ deps) := by
  have hh : ¬ (a.lang = some "c-header" ∨ a.lang = some "c++-header") := by
    intro hh
    obtain ⟨st2, hstage, hst⟩ := init_header h hh
    obtain ⟨_, hlg, _, _, _, _⟩ := headerStage_fields hstage
    have h1 : st.lang = a.lang := by
      subst hst
      rw [(finishTail_fields name st2).2.1, hlg]
      rfl
    rcases hh with hh | hh <;> rcases hl with hl | hl <;>
      rw [h1, hh] at hl <;> simp at hl
  obtain ⟨st2, st3, hproc, hfin, hst⟩ := init_generic h hh
  obtain ⟨hcc2, hcxx2, hed2, _, _, _, _, _, _, _, _⟩ := processInputs_pres hproc
  have hcxinit : (initProject name a).cxx =
      mkCxxBase a ++ ["-include", "$(INTDIR)" ++ a.precompiled] := by
    simp [initProject, mkCxxList, hp]
  have hdinit : "$(INTDIR)" ++ a.precompiled ++ "$(PCHEXT)" ∈
      (initProject name a).extdeps := by
    simp [initProject, hp]
  have hinv0 : IntsOK ("$(INTDIR)" ++ a.precompiled ++ "$(PCHEXT)")
      (initProject name a) := by
    intro k hk
    simp [initProject] at hk
  have hinv2 := intsOK_processInputs
    ("$(INTDIR)" ++ a.precompiled ++ "$(PCHEXT)") hproc hdinit hinv0
  have hlang : st.lang = st3.lang := by
    subst hst
    exact (finishTail_fields name st3).2.1
  obtain ⟨_, tail, _, hrule⟩ := init_link_rule name inputs a fs rp st h hl
  unfold Project.genericFinish at hfin
  split_ifs at hfin with hf1 hf2 hf3
  · exfalso
    injection hfin with hfin
    have hl3 : st3.lang = st2.lang := by rw [← hfin]
    rcases hl with hl | hl <;> rw [hlang, hl3] at hl <;> rw [hl] at hf1 <;>
      exact Bool.noConfusion hf1
  · injection hfin with hfin
    rw [← hfin] at hst
    obtain ⟨hinvF, hccF, hcxF, hedF⟩ := c10_branch name st2 st2.cxx st
      ("$(INTDIR)" ++ a.precompiled ++ "$(PCHEXT)") hst ho hn hinv2
    refine ⟨?_, ?_, hinvF, ?_⟩
    · rw [hcxF, hcxx2, hcxinit]
    · rw [hccF, hcc2]
      exact mkCcList_no_include a hc1 hc2
    · refine ⟨setUnion st.ints st.extdeps, _, hrule, ?_⟩
      apply (mem_setUnion _ _ _).mpr
      right
      rw [hedF, hed2]
      exact hdinit
  · injection hfin with hfin
    rw [← hfin] at hst
    obtain ⟨hinvF, hccF, hcxF, hedF⟩ := c10_branch name st2 st2.cc st
      ("$(INTDIR)" ++ a.precompiled ++ "$(PCHEXT)") hst ho hn hinv2
    refine ⟨?_, ?_, hinvF, ?_⟩
    · rw [hcxF, hcxx2, hcxinit]
    · rw [hccF, hcc2]
      exact mkCcList_no_include a hc1 hc2
    · refine ⟨setUnion st.ints st.extdeps, _, hrule, ?_⟩
      apply (mem_setUnion _ _ _).mpr
      right
      rw [hedF, hed2]
      exact hdinit

/-- Counterexample for C10: with precompiled reference `pch.h`, the C++
compile command contains `-include $(INTDIR)pch.h` but does not END with
those two arguments — the `-o $@ -c <input>` tail follows them. -/
theorem fzconf_C10_cex :
    lookupR (projOf (Project.init "app" ["main.cpp"]
        { precompiled := "pch.h" } fsMain rpId)).rules "$(INTDIR)main.cpp.o" =
      some (["main.cpp", "$(INTDIR)pch.h$(PCHEXT)"],
        [mkdirCmd,
         Cmd.toks ["$(CXX)", "$(CPPFLAGS)", "$(CXXFLAGS)", "-include",
           "$(INTDIR)pch.h", "-o", "$@", "-c", "main.cpp"]]) ∧
    List.isSuffixOf ["-include", "$(INTDIR)pch.h"]
      ["$(CXX)", "$(CPPFLAGS)", "$(CXXFLAGS)", "-include", "$(INTDIR)pch.h",
       "-o", "$@", "-c", "main.cpp"] = false := by
  decide

/-- Witness for C10 at a two-input project (`x.c` compiled as C, `y.cpp`
as C++) with precompiled reference `pch.h`. -/
theorem fzconf_C10_witness :
    (projOf (Project.init "app" ["x.c", "y.cpp"] { precompiled := "pch.h" } [] rpId)).cxx =
      mkCxxBase { precompiled := "pch.h" } ++ ["-include", "$(INTDIR)" ++ "pch.h"] ∧
    "-include" ∉ (projOf (Project.init "app" ["x.c", "y.cpp"]
      { precompiled := "pch.h" } [] rpId)).cc ∧
    (∀ k ∈ (projOf (Project.init "app" ["x.c", "y.cpp"]
        { precompiled := "pch.h" } [] rpId)).ints, ∃ deps inp cpl,
      lookupR (projOf (Project.init "app" ["x.c", "y.cpp"]
          { precompiled := "pch.h" } [] rpId)).rules k =
        some (deps, [mkdirCmd, Cmd.toks (cpl ++ ["-o", "$@", "-c", inp])]) ∧
      "$(INTDIR)" ++ "pch.h" ++ "$(PCHEXT)" ∈ deps ∧
      (cpl = (projOf (Project.init "app" ["x.c", "y.cpp"]
          { precompiled := "pch.h" } [] rpId)).cc ∨
       cpl = (projOf (Project.init "app" ["x.c", "y.cpp"]
          { precompiled := "pch.h" } [] rpId)).cxx)) ∧
    (∃ deps cmds,
      lookupR (projOf (Project.init "app" ["x.c", "y.cpp"]
          { precompiled := "pch.h" } [] rpId)).rules
        (projOf (Project.init "app" ["x.c", "y.cpp"]
          { precompiled := "pch.h" } [] rpId)).out = some (deps, cmds) ∧
      "$(INTDIR)" ++ "pch.h" ++ "$(PCHEXT)" ∈ deps) :=
  fzconf_C10 "app" ["x.c", "y.cpp"] { precompiled := "pch.h" } [] rpId
    (projOf (Project.init "app" ["x.c", "y.cpp"] { precompiled := "pch.h" } [] rpId))
    rfl (by decide) (Or.inr rfl) (by decide) (Or.inr (by decide))
    (by decide) (by decide)
